import Mathlib

/-!
# Verification of the dht11 Linux driver (`dht11.c`)

Shallow embedding of the single source file `src/dht11.c` of the
glitchub/linux-dht11 repository, together with theorems settling the
frozen claims C1..C10 about its specification.

Embedding conventions:
* `u8` / `u64` machine integers are modelled as `Nat` with explicit
  `% 256` / modulo-`2^64` arithmetic exactly where the C code truncates.
* The interrupt handler `doirq` (lines 35-77) becomes a pure step
  function on an explicit `IrqState` record holding the `static` /
  global variables it reads and writes (`state`, `edge`, `bit`,
  `nominal`, `data[5]`).  A GPIO edge is the pair of the pin level
  read by `gpio_get_value` after the edge (`true` = rising) and the
  `ktime_get_ns` timestamp.
* The per-cycle tail of the polling thread `dothread` (lines 106-121)
  becomes `dothreadStep`, acting on a `Store` record for the globals
  `valid`, `humidity`, `temperature`.  The mutex only orders accesses
  and has no effect on the values computed, so it is not modelled.
* The character-device read `doread` (lines 139-159) becomes a pure
  function from the store, the per-file state (`private_data` buffer
  and `*ofs`), and the requested length to an `Except` result
  (`-EINVAL` = `-22`) paired with the new file state.  `copy_to_user`
  is assumed to copy fully (return 0), and `sprintf "%d %d\n"` on the
  non-negative stored values is modelled by `fmtReading`.
-/

/-- u64 subtraction `a - b` as computed by C on 64-bit unsigned values
(wrap-around modulo `2^64 = 18446744073709551616`).  Timestamps fed to
the decoder are `u64` nanosecond values, hence `< 2^64`. -/
def sub64 (a b : Nat) : Nat :=
  (a + 18446744073709551616 - b % 18446744073709551616) % 18446744073709551616

/-- The variables of the interrupt handler `doirq` (dht11.c lines 33-40):
the globals `data[5]` and `state` plus the `static` locals `edge`, `bit`
and `nominal`. -/
structure IrqState where
  state : Nat
  edge : Nat
  bit : Nat
  nominal : Nat
  data : List Nat
deriving Repr, DecidableEq

/-- The bit value appended by a falling edge, as the C truth value of
`(now - edge) > nominal` (0 or 1). -/
def bitVal (b : Bool) : Nat := if b then 1 else 0

/-- `data[bit/8] = (data[bit/8] << 1) | b` (dht11.c line 69); the store
into the `u8` array truncates modulo 256. -/
def pushBit (d : List Nat) (i : Nat) (b : Bool) : List Nat :=
  d.set (i / 8) ((d.getD (i / 8) 0 * 2 + bitVal b) % 256)

/-- The interrupt handler `doirq` (dht11.c lines 35-77) as a step
function: `level` is `gpio_get_value(gpio)` at the edge (`true` =
rising edge), `now` is `ktime_get_ns()`.  State 0 (and any state other
than 1, 2, 3) ignores the edge. -/
def doirq (level : Bool) (now : Nat) (s : IrqState) : IrqState :=
  if s.state = 1 then
    -- wait for initial 80 uS high
    if level then { s with state := 2 } else s
  else if s.state = 2 then
    -- initial 50uS low, remember edge
    { s with edge := now, bit := 0, state := 3 }
  else if s.state = 3 then
    if level then
      -- data bit rising edge
      { s with nominal := if s.bit = 0 then sub64 now s.edge else s.nominal,
               edge := now }
    else
      -- data bit falling edge
      { s with data := pushBit s.data s.bit (decide (s.nominal < sub64 now s.edge)),
               bit := s.bit + 1,
               state := if 40 ≤ s.bit + 1 then 0 else s.state }
  else s

/-- Run the interrupt handler over a list of edge events. -/
def runIrq (s : IrqState) (evs : List (Bool × Nat)) : IrqState :=
  evs.foldl (fun s e => doirq e.1 e.2 s) s

/-- The driver thread forcing the decoder to `Idle`: `state = 0`
(dht11.c lines 93 and 104).  Only the state word is written. -/
def disarm (s : IrqState) : IrqState := { s with state := 0 }

/-- Edge events of the 40-bit data phase: for each pair `(l, w)` the
pin stays low for `l` ns then high for `w` ns, producing a rising edge
and then a falling edge.  `t` is the timestamp of the reference (low)
edge that entered state 3. -/
def bitEvents (t : Nat) : List (Nat × Nat) → List (Bool × Nat)
  | [] => []
  | (l, w) :: ps => (true, t + l) :: (false, t + l + w) :: bitEvents (t + l + w) ps

/-- Total duration of a list of low/high pulse pairs. -/
def spanSum (ps : List (Nat × Nat)) : Nat := (ps.map fun p => p.1 + p.2).sum

/-- Value of a bit string read most-significant-bit first. -/
def byteVal (bs : List Bool) : Nat :=
  bs.foldl (fun acc b => acc * 2 + bitVal b) 0

/-- The five bytes a 40-bit string denotes, MSB-first per byte. -/
def bytesOfBits (bs : List Bool) : List Nat :=
  [byteVal (bs.take 8), byteVal ((bs.drop 8).take 8), byteVal ((bs.drop 16).take 8),
   byteVal ((bs.drop 24).take 8), byteVal ((bs.drop 32).take 8)]

/-- Push a string of bits into the data buffer starting at bit index `i`,
one `pushBit` per bit, as the falling edges of `doirq` do. -/
def pushBits (d : List Nat) (i : Nat) : List Bool → List Nat
  | [] => d
  | b :: bs => pushBits (pushBit d i b) (i + 1) bs

/-- The shared result store: the globals `valid`, `humidity`,
`temperature` (dht11.c line 80).  `valid` is a C `int`, modelled as
`Int`; the two readings are computed from `u8` data so they are
natural numbers. -/
structure Store where
  valid : Int
  humidity : Nat
  temperature : Nat
deriving Repr, DecidableEq

/-- The frame checks of the acquisition thread (dht11.c lines 107-109):
`data[1] <= 9 && data[3] <= 9 && ((data[0]+data[1]+data[2]+data[3]) & 255) == data[4]`.
`& 255` on non-negative ints is `% 256`. -/
def validateFrame (data : List Nat) : Bool :=
  decide (data.getD 1 0 ≤ 9) && decide (data.getD 3 0 ≤ 9) &&
  ((data.getD 0 0 + data.getD 1 0 + data.getD 2 0 + data.getD 3 0) % 256
    == data.getD 4 0)

/-- The success branch of the thread (dht11.c lines 111-115): set
`valid = 5` and store the two readings. -/
def publish (h t : Nat) (_prev : Store) : Store :=
  { valid := 5, humidity := h, temperature := t }

/-- The failure branch of the thread (dht11.c line 119):
`if (valid) valid--;`. -/
def recordFailure (st : Store) : Store :=
  { st with valid := if st.valid ≠ 0 then st.valid - 1 else st.valid }

/-- One validation/publication step of `dothread` (dht11.c lines
106-121): `final` is the ISR state captured after the 25 ms wait
(line 103), `data` is the ISR byte buffer. -/
def dothreadStep (final : Nat) (data : List Nat) (st : Store) : Store :=
  if final == 0 && validateFrame data then
    publish (data.getD 0 0 * 10 + data.getD 1 0)
            (data.getD 2 0 * 10 + data.getD 3 0) st
  else recordFailure st

/-- Decimal digits of `n` as ASCII byte values, most significant first;
models `sprintf "%d"` on a non-negative int.  Structural recursion on a
fuel argument (`n` has at most `n + 1` digits). -/
def decBytesCore : Nat → Nat → List Nat → List Nat
  | 0, _, acc => acc
  | fuel + 1, n, acc =>
      if n < 10 then (48 + n) :: acc
      else decBytesCore fuel (n / 10) ((48 + n % 10) :: acc)

/-- ASCII decimal representation of a natural number. -/
def decBytes (n : Nat) : List Nat := decBytesCore (n + 1) n []

/-- The bytes `sprintf(buf, "%d %d\n", humidity, temperature)` leaves in
the buffer, including the terminating NUL: digits of `h`, a space (32),
digits of `t`, a newline (10) and the NUL (0).  Its length is the
`sprintf` return value plus one (dht11.c line 152 computes exactly
this as `n`). -/
def fmtReading (h t : Nat) : List Nat :=
  decBytes h ++ [32] ++ decBytes t ++ [10, 0]

/-- `strlen` on the byte buffer: length of the prefix before the first
NUL byte. -/
def strlen (buf : List Nat) : Nat := (buf.takeWhile (fun b => b != 0)).length

/-- Per-open file state: the `private_data` string buffer and the file
offset `*ofs`. -/
structure FileState where
  buf : List Nat
  ofs : Nat
deriving Repr, DecidableEq

/-- `doopen` (dht11.c lines 130-136): allocate the buffer and set its
first byte to NUL (allocation failure is not modelled). -/
def doopen : FileState := ⟨[0], 0⟩

/-- `doread` (dht11.c lines 139-159).  Returns either `-EINVAL`
(= `-22`) or the bytes copied to the user (returning 0 bytes models a
0 return), plus the updated file state.  `copy_to_user` is assumed to
copy everything (return 0). -/
def doread (st : Store) (fs : FileState) (len : Nat) :
    Except Int (List Nat) × FileState :=
  if fs.ofs ≠ 0 then
    -- remainder from last read: n = strlen(private_data) - *ofs
    if strlen fs.buf ≤ fs.ofs then (.ok [], fs)
    else
      let n := min (strlen fs.buf - fs.ofs) len
      (.ok ((fs.buf.drop fs.ofs).take n), { fs with ofs := fs.ofs + n })
  else
    if st.valid = 0 then (.error (-22), fs)
    else
      -- n = sprintf(private_data, "%d %d\n", humidity, temperature) + 1
      let buf := fmtReading st.humidity st.temperature
      let n := min buf.length len
      (.ok (buf.take n), { buf := buf, ofs := n })

/-! ## List helpers for the byte buffer -/

theorem getD_set_self (d : List Nat) (j x : Nat) (hj : j < d.length) :
    (d.set j x).getD j 0 = x := by
  induction d generalizing j with
  | nil => simp at hj
  | cons a d ih =>
    cases j with
    | zero => rfl
    | succ j => exact ih j (by simpa using hj)

theorem getD_set_other (d : List Nat) (i j x : Nat) (h : i ≠ j) :
    (d.set i x).getD j 0 = d.getD j 0 := by
  induction d generalizing i j with
  | nil => simp [List.set]
  | cons a d ih =>
    cases i with
    | zero =>
      cases j with
      | zero => exact absurd rfl h
      | succ j => rfl
    | succ i =>
      cases j with
      | zero => rfl
      | succ j => exact ih i j (by omega)

theorem set_getD_self (d : List Nat) (j : Nat) (hj : j < d.length) :
    d.set j (d.getD j 0) = d := by
  induction d generalizing j with
  | nil => simp at hj
  | cons a d ih =>
    cases j with
    | zero => rfl
    | succ j => simpa using ih j (by simpa using hj)

/-! ## Bit accumulation lemmas -/

theorem byteVal_acc (bs : List Bool) : ∀ a : Nat,
    bs.foldl (fun acc b => acc * 2 + bitVal b) a = a * 2 ^ bs.length + byteVal bs := by
  induction bs with
  | nil => intro a; simp [byteVal]
  | cons b bs ih =>
    intro a
    have hcons : byteVal (b :: bs) = bitVal b * 2 ^ bs.length + byteVal bs := by
      simp only [byteVal, List.foldl_cons, Nat.zero_mul, Nat.zero_add]
      exact ih (bitVal b)
    simp only [List.foldl_cons, List.length_cons]
    rw [ih (a * 2 + bitVal b), hcons]
    ring

theorem byteVal_cons (b : Bool) (bs : List Bool) :
    byteVal (b :: bs) = bitVal b * 2 ^ bs.length + byteVal bs := by
  simp only [byteVal, List.foldl_cons, Nat.zero_mul, Nat.zero_add]
  exact byteVal_acc bs (bitVal b)

theorem byteVal_lt (bs : List Bool) : byteVal bs < 2 ^ bs.length := by
  induction bs with
  | nil => simp [byteVal]
  | cons b bs ih =>
    rw [byteVal_cons, List.length_cons, pow_succ]
    have hb : bitVal b ≤ 1 := by cases b <;> simp [bitVal]
    have : bitVal b * 2 ^ bs.length ≤ 2 ^ bs.length :=
      le_trans (Nat.mul_le_mul_right _ hb) (by omega)
    omega

/-- Folding the truncating shift-and-or over a nonempty bit string. -/
theorem fold256_eq (bs : List Bool) : ∀ a : Nat, bs ≠ [] →
    bs.foldl (fun acc b => (acc * 2 + bitVal b) % 256) a
      = (a * 2 ^ bs.length + byteVal bs) % 256 := by
  induction bs with
  | nil => intro a h; exact absurd rfl h
  | cons b bs ih =>
    intro a _
    by_cases hbs : bs = []
    · subst hbs
      simp [byteVal, bitVal]
    · simp only [List.foldl_cons, List.length_cons]
      rw [ih _ hbs]
      have hmod : ((a * 2 + bitVal b) % 256 * 2 ^ bs.length + byteVal bs) % 256
          = ((a * 2 + bitVal b) * 2 ^ bs.length + byteVal bs) % 256 :=
        Nat.ModEq.add_right _ (Nat.ModEq.mul_right _ (Nat.mod_modEq _ _))
      rw [hmod, byteVal_cons]
      congr 1
      ring

theorem pushBits_length (bs : List Bool) : ∀ (d : List Nat) (i : Nat),
    (pushBits d i bs).length = d.length := by
  induction bs with
  | nil => intro d i; rfl
  | cons b bs ih =>
    intro d i
    rw [pushBits, ih, pushBit, List.length_set]

theorem pushBits_append (xs ys : List Bool) : ∀ (d : List Nat) (i : Nat),
    pushBits d i (xs ++ ys) = pushBits (pushBits d i xs) (i + xs.length) ys := by
  induction xs with
  | nil => intro d i; simp [pushBits]
  | cons x xs ih =>
    intro d i
    simp only [List.cons_append, pushBits, List.length_cons]
    have h := ih (pushBit d i x) (i + 1)
    rw [show i + 1 + xs.length = i + (xs.length + 1) from by omega] at h
    exact h

/-- Pushing a chunk of bits whose indices all lie in byte `j` updates
only slot `j`, with the truncating shift-and-or fold. -/
theorem pushBits_chunk (c : List Bool) : ∀ (r j : Nat) (d : List Nat),
    c.length + r ≤ 8 → j < d.length →
    pushBits d (8 * j + r) c
      = d.set j (c.foldl (fun acc b => (acc * 2 + bitVal b) % 256) (d.getD j 0)) := by
  induction c with
  | nil =>
    intro r j d _ hj
    simpa [pushBits] using (set_getD_self d j hj).symm
  | cons b c ih =>
    intro r j d hlen hj
    have hr : r < 8 := by simp only [List.length_cons] at hlen; omega
    have hdiv : (8 * j + r) / 8 = j := by omega
    simp only [pushBits, List.foldl_cons]
    have hpush : pushBit d (8 * j + r) b
        = d.set j ((d.getD j 0 * 2 + bitVal b) % 256) := by
      rw [pushBit, hdiv]
    rw [hpush]
    have hstep : 8 * j + r + 1 = 8 * j + (r + 1) := by omega
    rw [hstep, ih (r + 1) j _ (by simp only [List.length_cons] at hlen; omega)
          (by rw [List.length_set]; exact hj)]
    rw [getD_set_self d j _ hj, List.set_set]

/-- Pushing 8 bits whose indices form byte `j` overwrites slot `j` with
the MSB-first value of those bits (the old slot content is shifted out
by the `% 256` truncation). -/
theorem pushBits_byte (c : List Bool) (j : Nat) (d : List Nat)
    (hc : c.length = 8) (hj : j < d.length) :
    pushBits d (8 * j) c = d.set j (byteVal c) := by
  have h := pushBits_chunk c 0 j d (by omega) hj
  rw [Nat.add_zero] at h
  have hne : c ≠ [] := by intro hnil; rw [hnil] at hc; simp at hc
  rw [h, fold256_eq c _ hne]
  have hlt : byteVal c < 256 := by
    have hv := byteVal_lt c
    rw [hc] at hv
    norm_num at hv
    exact hv
  congr 1
  rw [hc]
  norm_num
  omega

/-- Pushing a 40-bit string into a 5-byte buffer, starting at bit 0,
produces exactly the MSB-first bytes of the string. -/
theorem pushBits_eq (bs : List Bool) (d : List Nat)
    (hbs : bs.length = 40) (hd : d.length = 5) :
    pushBits d 0 bs = bytesOfBits bs := by
  rcases d with _ | ⟨d0, d⟩; · simp at hd
  rcases d with _ | ⟨d1, d⟩; · simp at hd
  rcases d with _ | ⟨d2, d⟩; · simp at hd
  rcases d with _ | ⟨d3, d⟩; · simp at hd
  rcases d with _ | ⟨d4, d⟩; · simp at hd
  obtain rfl : d = [] := by
    cases d with
    | nil => rfl
    | cons a l => simp only [List.length_cons] at hd; omega
  have hlen0 : (bs.take 8).length = 8 := by simp [hbs]
  have hlen1 : ((bs.drop 8).take 8).length = 8 := by simp [hbs]
  have hlen2 : ((bs.drop 16).take 8).length = 8 := by simp [hbs]
  have hlen3 : ((bs.drop 24).take 8).length = 8 := by simp [hbs]
  have hlen4 : ((bs.drop 32).take 8).length = 8 := by simp [hbs]
  have dtake : (bs.drop 32).take 8 = bs.drop 32 :=
    List.take_of_length_le (by simp [hbs])
  have dd16 : (bs.drop 8).drop 8 = bs.drop 16 := by
    rw [List.drop_drop]
  have dd24 : (bs.drop 16).drop 8 = bs.drop 24 := by
    rw [List.drop_drop]
  have dd32 : (bs.drop 24).drop 8 = bs.drop 32 := by
    rw [List.drop_drop]
  have hsplit : bs = bs.take 8 ++ ((bs.drop 8).take 8 ++ ((bs.drop 16).take 8
      ++ ((bs.drop 24).take 8 ++ (bs.drop 32).take 8))) := by
    have f4 : (bs.drop 24).take 8 ++ bs.drop 32 = bs.drop 24 := by
      rw [← dd32]; exact List.take_append_drop 8 (bs.drop 24)
    have f3 : (bs.drop 16).take 8 ++ bs.drop 24 = bs.drop 16 := by
      rw [← dd24]; exact List.take_append_drop 8 (bs.drop 16)
    have f2 : (bs.drop 8).take 8 ++ bs.drop 16 = bs.drop 8 := by
      rw [← dd16]; exact List.take_append_drop 8 (bs.drop 8)
    rw [dtake, f4, f3, f2, List.take_append_drop]
  have q0 : pushBits [d0, d1, d2, d3, d4] 0 (bs.take 8)
      = [byteVal (bs.take 8), d1, d2, d3, d4] :=
    pushBits_byte (bs.take 8) 0 [d0, d1, d2, d3, d4] hlen0 (by norm_num)
  have q1 : pushBits [byteVal (bs.take 8), d1, d2, d3, d4] 8 ((bs.drop 8).take 8)
      = [byteVal (bs.take 8), byteVal ((bs.drop 8).take 8), d2, d3, d4] :=
    pushBits_byte ((bs.drop 8).take 8) 1 _ hlen1 (by norm_num)
  have q2 : pushBits [byteVal (bs.take 8), byteVal ((bs.drop 8).take 8), d2, d3, d4]
        16 ((bs.drop 16).take 8)
      = [byteVal (bs.take 8), byteVal ((bs.drop 8).take 8),
         byteVal ((bs.drop 16).take 8), d3, d4] :=
    pushBits_byte ((bs.drop 16).take 8) 2 _ hlen2 (by norm_num)
  have q3 : pushBits [byteVal (bs.take 8), byteVal ((bs.drop 8).take 8),
        byteVal ((bs.drop 16).take 8), d3, d4] 24 ((bs.drop 24).take 8)
      = [byteVal (bs.take 8), byteVal ((bs.drop 8).take 8),
         byteVal ((bs.drop 16).take 8), byteVal ((bs.drop 24).take 8), d4] :=
    pushBits_byte ((bs.drop 24).take 8) 3 _ hlen3 (by norm_num)
  have q4 : pushBits [byteVal (bs.take 8), byteVal ((bs.drop 8).take 8),
        byteVal ((bs.drop 16).take 8), byteVal ((bs.drop 24).take 8), d4]
        32 ((bs.drop 32).take 8)
      = [byteVal (bs.take 8), byteVal ((bs.drop 8).take 8),
         byteVal ((bs.drop 16).take 8), byteVal ((bs.drop 24).take 8),
         byteVal ((bs.drop 32).take 8)] :=
    pushBits_byte ((bs.drop 32).take 8) 4 _ hlen4 (by norm_num)
  conv_lhs => rw [hsplit]
  rw [pushBits_append, pushBits_append, pushBits_append, pushBits_append,
      hlen0, hlen1, hlen2, hlen3]
  norm_num
  rw [q0, q1, q2, q3, q4]
  rfl

/-! ## Decoder step lemmas -/

theorem sub64_eq_sub (a b : Nat) (hb : b ≤ a) (ha : a < 18446744073709551616) :
    sub64 a b = a - b := by
  unfold sub64
  omega

theorem doirq_state3_rise (s : IrqState) (now : Nat) (hs : s.state = 3) :
    doirq true now s
      = { s with nominal := if s.bit = 0 then sub64 now s.edge else s.nominal,
                 edge := now } := by
  simp [doirq, hs]

theorem doirq_state3_fall (s : IrqState) (now : Nat) (hs : s.state = 3) :
    doirq false now s
      = { s with data := pushBit s.data s.bit (decide (s.nominal < sub64 now s.edge)),
                 bit := s.bit + 1,
                 state := if 40 ≤ s.bit + 1 then 0 else 3 } := by
  simp [doirq, hs]

theorem runIrq_cons (s : IrqState) (b : Bool) (n : Nat) (evs : List (Bool × Nat)) :
    runIrq s ((b, n) :: evs) = runIrq (doirq b n s) evs := rfl

/-- Running the decoder from state 3 over the data-phase events of bits
`k, k+1, ..., 39` (one low/high pair per bit, `k ≥ 1` so the nominal
width is already fixed): it reaches `Idle` (state 0) at bit 40 with the
bits `w > nominal` pushed in order. -/
theorem runIrq_bits (nom : Nat) : ∀ (ps : List (Nat × Nat)) (l w t k e0 : Nat)
    (d : List Nat), 1 ≤ k → k + (ps.length + 1) = 40 →
    t + (l + w + spanSum ps) < 18446744073709551616 →
    (runIrq ⟨3, e0, k, nom, d⟩ (bitEvents t ((l, w) :: ps))).state = 0 ∧
    (runIrq ⟨3, e0, k, nom, d⟩ (bitEvents t ((l, w) :: ps))).bit = 40 ∧
    (runIrq ⟨3, e0, k, nom, d⟩ (bitEvents t ((l, w) :: ps))).data
      = pushBits d k (((l, w) :: ps).map fun p => decide (nom < p.2)) := by
  intro ps
  induction ps with
  | nil =>
    intro l w t k e0 d hk hk40 ht
    have hk39 : k = 39 := by simpa using hk40
    subst hk39
    have hsub : sub64 (t + l + w) (t + l) = w := by
      rw [sub64_eq_sub (t + l + w) (t + l) (by omega)
        (by simp [spanSum] at ht; omega)]
      omega
    simp only [bitEvents, runIrq, List.foldl_cons, List.foldl_nil]
    rw [show doirq true (t + l) ⟨3, e0, 39, nom, d⟩
        = ⟨3, t + l, 39, nom, d⟩ from by simp [doirq]]
    rw [show doirq false (t + l + w) ⟨3, t + l, 39, nom, d⟩
        = ⟨0, t + l, 40, nom,
            pushBit d 39 (decide (nom < sub64 (t + l + w) (t + l)))⟩ from by
      simp [doirq]]
    rw [hsub]
    exact ⟨rfl, rfl, rfl⟩
  | cons p ps ih =>
    intro l w t k e0 d hk hk40 ht
    obtain ⟨l', w'⟩ := p
    have hsum : spanSum ((l', w') :: ps) = l' + w' + spanSum ps := by
      simp [spanSum]
    have htlw : t + l + w < 18446744073709551616 := by
      rw [hsum] at ht; omega
    have hsub : sub64 (t + l + w) (t + l) = w := by
      rw [sub64_eq_sub (t + l + w) (t + l) (by omega) htlw]
      omega
    have hklt : ¬ 40 ≤ k + 1 := by
      simp only [List.length_cons] at hk40
      omega
    have hk0 : k ≠ 0 := by omega
    have e1 : doirq true (t + l) ⟨3, e0, k, nom, d⟩ = ⟨3, t + l, k, nom, d⟩ := by
      simp [doirq, hk0]
    have e2 : doirq false (t + l + w) ⟨3, t + l, k, nom, d⟩
        = ⟨3, t + l, k + 1, nom, pushBit d k (decide (nom < w))⟩ := by
      simp [doirq, hsub, hklt]
    have hrun : runIrq ⟨3, e0, k, nom, d⟩ (bitEvents t ((l, w) :: (l', w') :: ps))
        = runIrq ⟨3, t + l, k + 1, nom, pushBit d k (decide (nom < w))⟩
            (bitEvents (t + l + w) ((l', w') :: ps)) := by
      rw [show bitEvents t ((l, w) :: (l', w') :: ps)
          = (true, t + l) :: (false, t + l + w)
              :: bitEvents (t + l + w) ((l', w') :: ps) from rfl]
      rw [runIrq_cons, e1, runIrq_cons, e2]
    have ih' := ih l' w' (t + l + w) (k + 1) (t + l)
      (pushBit d k (decide (nom < w))) (by omega)
      (by simp only [List.length_cons] at hk40 ⊢; omega)
      (by rw [hsum] at ht; omega)
    rw [hrun]
    refine ⟨ih'.1, ih'.2.1, ?_⟩
    rw [ih'.2.2]
    simp [pushBits]

/-! ## Store lemmas -/

theorem recordFailure_valid (s : Store) :
    (recordFailure s).valid = if s.valid ≠ 0 then s.valid - 1 else s.valid := rfl

/-- Iterating the failure branch from a non-negative counter floors at 0. -/
theorem recordFailure_iterate (N : Nat) : ∀ s : Store, 0 ≤ s.valid →
    (recordFailure^[N] s).valid = max 0 (s.valid - N) := by
  induction N with
  | zero =>
    intro s hs
    simp only [Function.iterate_zero, id_eq, Nat.cast_zero, sub_zero]
    omega
  | succ N ih =>
    intro s hs
    have h0 : 0 ≤ (recordFailure s).valid := by
      rw [recordFailure_valid]; split <;> omega
    rw [Function.iterate_succ_apply, ih _ h0, recordFailure_valid]
    split <;> push_cast <;> omega

/-! ## Claims about validation and publication -/

/-- Claim C1: an acquired 5-byte frame passes the thread's frame checks
(dht11.c lines 107-109) iff the 8-bit-masked sum of the first four
bytes equals the fifth byte, the humidity-fraction byte (index 1) is at
most 9 and the temperature-fraction byte (index 3) is at most 9. -/
theorem validateFrame_iff (d0 d1 d2 d3 d4 : Nat) :
    validateFrame [d0, d1, d2, d3, d4] = true ↔
      ((d0 + d1 + d2 + d3) % 256 = d4 ∧ d1 ≤ 9 ∧ d3 ≤ 9) := by
  simp [validateFrame]
  tauto

/-- Claim C3 counterexample: frame bytes 0x41 02 17 03 5D (= 65, 2, 23,
3, 93 in decimal) validate and are published, but the published reading
is {652, 233} (65·10+2 and 23·10+3), not {412, 173} as the claim
states. -/
theorem scenario1_counterexample :
    dothreadStep 0 [0x41, 0x02, 0x17, 0x03, 0x5D] ⟨0, 0, 0⟩ = ⟨5, 652, 233⟩ ∧
    ((652 : Nat) ≠ 412 ∧ (233 : Nat) ≠ 173) :=
  ⟨rfl, by decide⟩

/-- Claim C3 (amended): a cycle completing with frame bytes
0x41 02 17 03 5D validates and publishes the reading
{humidityTenths := 652, temperatureTenths := 233} with validity 5,
whatever the previous store contents. -/
theorem scenario1_amended (st : Store) :
    dothreadStep 0 [0x41, 0x02, 0x17, 0x03, 0x5D] st = ⟨5, 652, 233⟩ := rfl

/-- Claim C4: every validated frame is published by exact integer
arithmetic as fixed-point tenths: humidity = data[0]·10 + data[1] and
temperature = data[2]·10 + data[3] (the whole embedding is integral;
the driver performs no floating-point arithmetic). -/
theorem published_fixed_point (final : Nat) (data : List Nat) (st : Store)
    (hf : final = 0) (hv : validateFrame data = true) :
    (dothreadStep final data st).humidity = data.getD 0 0 * 10 + data.getD 1 0 ∧
    (dothreadStep final data st).temperature = data.getD 2 0 * 10 + data.getD 3 0 := by
  subst hf
  simp [dothreadStep, hv, publish]

theorem published_fixed_point_witness :
    (dothreadStep 0 [65, 2, 23, 3, 93] ⟨0, 0, 0⟩).humidity = 65 * 10 + 2 ∧
    (dothreadStep 0 [65, 2, 23, 3, 93] ⟨0, 0, 0⟩).temperature = 23 * 10 + 3 :=
  published_fixed_point 0 [65, 2, 23, 3, 93] ⟨0, 0, 0⟩ rfl (by decide)

/-- Claim C5: a successful cycle sets the validity counter to its
maximum 5; N consecutive failed cycles from the maximum leave it at
max(0, 5 - N), each failure decrementing by exactly 1 until the floor
at 0, and the counter is never negative. -/
theorem validity_decay (st : Store) (h t : Nat) (N : Nat) :
    (publish h t st).valid = 5 ∧
    (recordFailure^[N] (publish h t st)).valid = max 0 (5 - (N : Int)) ∧
    0 ≤ (recordFailure^[N] (publish h t st)).valid := by
  have h5 : (publish h t st).valid = (5 : Int) := rfl
  have hit := recordFailure_iterate N (publish h t st) (by rw [h5]; norm_num)
  rw [h5] at hit
  exact ⟨h5, hit, by rw [hit]; exact le_max_left 0 _⟩

/-- Claim C8: forcing the decoder to Idle twice in a row equals forcing
it once, and an edge event arriving while the decoder is disarmed
changes neither the frame buffer nor any decoder state. -/
theorem disarm_idempotent_idle_ignores (s : IrqState) (level : Bool) (now : Nat) :
    disarm (disarm s) = disarm s ∧ doirq level now (disarm s) = disarm s :=
  ⟨rfl, rfl⟩

/-- Claim C9 counterexample: when the validity counter is already 0, a
failed cycle (here a checksum mismatch) leaves it at 0 — it is not
decremented by 1 — while the reading is unchanged. -/
theorem failed_cycle_counterexample :
    dothreadStep 0 [1, 2, 3, 4, 5] ⟨0, 412, 173⟩ = ⟨0, 412, 173⟩ ∧
    (dothreadStep 0 [1, 2, 3, 4, 5] ⟨0, 412, 173⟩).valid ≠ (0 : Int) - 1 :=
  ⟨rfl, by decide⟩

/-- Claim C9 (amended): on every failed acquisition cycle (timeout,
checksum mismatch or fraction-range violation) the stored reading is
left unchanged and the validity counter becomes max(0, valid - 1):
decremented by exactly 1 when positive, left at 0 otherwise. -/
theorem failed_cycle_preserves_reading (final : Nat) (data : List Nat) (st : Store)
    (hfail : ¬ (final = 0 ∧ validateFrame data = true)) (hv : 0 ≤ st.valid) :
    (dothreadStep final data st).humidity = st.humidity ∧
    (dothreadStep final data st).temperature = st.temperature ∧
    (dothreadStep final data st).valid = max 0 (st.valid - 1) := by
  have hcond : (final == 0 && validateFrame data) = false := by
    cases hb : validateFrame data with
    | false => simp [hb]
    | true =>
      have hf : ¬ final = 0 := fun h => hfail ⟨h, hb⟩
      simp [hb, hf]
  refine ⟨by simp [dothreadStep, hcond, recordFailure],
          by simp [dothreadStep, hcond, recordFailure], ?_⟩
  have : (dothreadStep final data st).valid = (recordFailure st).valid := by
    simp [dothreadStep, hcond]
  rw [this, recordFailure_valid]
  split <;> omega

theorem failed_cycle_preserves_reading_witness :
    (dothreadStep 1 [0, 0, 0, 0, 0] ⟨3, 412, 173⟩).humidity = 412 ∧
    (dothreadStep 1 [0, 0, 0, 0, 0] ⟨3, 412, 173⟩).temperature = 173 ∧
    (dothreadStep 1 [0, 0, 0, 0, 0] ⟨3, 412, 173⟩).valid = max 0 ((3 : Int) - 1) :=
  failed_cycle_preserves_reading 1 [0, 0, 0, 0, 0] ⟨3, 412, 173⟩
    (by decide) (by decide)

/-- Claim C2: starting from the armed decoder just after the reference
low edge (state 3, reference timestamp `t0`, bit 0, any stale nominal
width and any 5-byte buffer contents), a complete 40-bit edge sequence
— one low pulse then one high pulse per bit — drives the decoder to
Idle (state 0) at bit 40, each falling edge appending bit 1 exactly
when the high-pulse width exceeds the nominal width captured on bit 0
(the first low-pulse width `l0`), MSB-first into byte bit/8; the
resulting 5 bytes are exactly the injected bit pattern. -/
theorem doirq_decodes_frame (t0 nom0 l0 w0 : Nat) (ps : List (Nat × Nat))
    (d : List Nat) (hd : d.length = 5) (hps : ps.length = 39)
    (ht : t0 + (l0 + w0 + spanSum ps) < 18446744073709551616) :
    (runIrq ⟨3, t0, 0, nom0, d⟩ (bitEvents t0 ((l0, w0) :: ps))).state = 0 ∧
    (runIrq ⟨3, t0, 0, nom0, d⟩ (bitEvents t0 ((l0, w0) :: ps))).bit = 40 ∧
    (runIrq ⟨3, t0, 0, nom0, d⟩ (bitEvents t0 ((l0, w0) :: ps))).data
      = bytesOfBits (((l0, w0) :: ps).map fun p => decide (l0 < p.2)) := by
  obtain ⟨q, qs, rfl⟩ : ∃ q qs, ps = q :: qs := by
    cases ps with
    | nil => simp at hps
    | cons q qs => exact ⟨q, qs, rfl⟩
  obtain ⟨l1, w1⟩ := q
  have hsum : spanSum ((l1, w1) :: qs) = l1 + w1 + spanSum qs := by
    simp [spanSum]
  have ht0l : t0 + l0 < 18446744073709551616 := by omega
  have ht0lw : t0 + l0 + w0 < 18446744073709551616 := by omega
  have hsub0 : sub64 (t0 + l0) t0 = l0 := by
    rw [sub64_eq_sub (t0 + l0) t0 (by omega) ht0l]; omega
  have hsubw : sub64 (t0 + l0 + w0) (t0 + l0) = w0 := by
    rw [sub64_eq_sub (t0 + l0 + w0) (t0 + l0) (by omega) ht0lw]; omega
  have e1 : doirq true (t0 + l0) ⟨3, t0, 0, nom0, d⟩
      = ⟨3, t0 + l0, 0, l0, d⟩ := by
    simp [doirq, hsub0]
  have e2 : doirq false (t0 + l0 + w0) ⟨3, t0 + l0, 0, l0, d⟩
      = ⟨3, t0 + l0, 1, l0, pushBit d 0 (decide (l0 < w0))⟩ := by
    simp [doirq, hsubw]
  have hrun : runIrq ⟨3, t0, 0, nom0, d⟩
        (bitEvents t0 ((l0, w0) :: (l1, w1) :: qs))
      = runIrq ⟨3, t0 + l0, 1, l0, pushBit d 0 (decide (l0 < w0))⟩
          (bitEvents (t0 + l0 + w0) ((l1, w1) :: qs)) := by
    rw [show bitEvents t0 ((l0, w0) :: (l1, w1) :: qs)
        = (true, t0 + l0) :: (false, t0 + l0 + w0)
            :: bitEvents (t0 + l0 + w0) ((l1, w1) :: qs) from rfl]
    rw [runIrq_cons, e1, runIrq_cons, e2]
  have hrest := runIrq_bits l0 qs l1 w1 (t0 + l0 + w0) 1 (t0 + l0)
    (pushBit d 0 (decide (l0 < w0))) (by omega)
    (by simp only [List.length_cons] at hps; omega)
    (by rw [hsum] at ht; omega)
  rw [hrun]
  refine ⟨hrest.1, hrest.2.1, ?_⟩
  rw [hrest.2.2]
  have hpush : pushBits (pushBit d 0 (decide (l0 < w0))) 1
        (((l1, w1) :: qs).map fun p => decide (l0 < p.2))
      = pushBits d 0 (((l0, w0) :: (l1, w1) :: qs).map fun p => decide (l0 < p.2)) := by
    simp [pushBits]
  rw [hpush]
  refine pushBits_eq _ d ?_ hd
  simp only [List.length_map, List.length_cons]
  simp only [List.length_cons] at hps
  omega

theorem doirq_decodes_frame_witness :
    (runIrq ⟨3, 0, 0, 123, [7, 7, 7, 7, 7]⟩
        (bitEvents 0 ((50, 28) :: List.replicate 39 (50, 70)))).state = 0 ∧
    (runIrq ⟨3, 0, 0, 123, [7, 7, 7, 7, 7]⟩
        (bitEvents 0 ((50, 28) :: List.replicate 39 (50, 70)))).bit = 40 ∧
    (runIrq ⟨3, 0, 0, 123, [7, 7, 7, 7, 7]⟩
        (bitEvents 0 ((50, 28) :: List.replicate 39 (50, 70)))).data
      = bytesOfBits (((50, 28) :: List.replicate 39 (50, 70)).map
          fun p => decide (50 < p.2)) :=
  doirq_decodes_frame 0 123 50 28 (List.replicate 39 (50, 70)) [7, 7, 7, 7, 7]
    (by decide) (by decide) (by decide)

/-! ## Claims about the read path -/

/-- Claim C10: the validity check applies only to a read starting at
file offset 0.  A read at a nonzero offset is served the remaining
bytes of the string stored by the earlier offset-zero read (0 bytes
when it is exhausted), regardless of the validity counter — the result
does not depend on the store at all. -/
theorem read_nonzero_offset (st : Store) (fs : FileState) (len : Nat)
    (h : fs.ofs ≠ 0) :
    (doread st fs len).1
      = .ok (((fs.buf.takeWhile (fun b => b != 0)).drop fs.ofs).take len) := by
  have htw : fs.buf.takeWhile (fun b => b != 0) = fs.buf.take (strlen fs.buf) :=
    List.prefix_iff_eq_take.1 ( List.takeWhile_prefix _)
  by_cases hle : strlen fs.buf ≤ fs.ofs
  · have hnil : (fs.buf.takeWhile (fun b => b != 0)).drop fs.ofs = [] :=
      List.drop_eq_nil_of_le hle
    simp [doread, h, hle, hnil]
  · simp only [doread, h, hle, if_true, if_false, ite_not]
    rw [htw, List.drop_take, List.take_take]
    simp [hle]
    omega

theorem read_nonzero_offset_witness :
    (doread ⟨0, 412, 173⟩ ⟨fmtReading 412 173, 8⟩ 5).1
      = .ok ((((fmtReading 412 173).takeWhile (fun b => b != 0)).drop 8).take 5) :=
  read_nonzero_offset ⟨0, 412, 173⟩ ⟨fmtReading 412 173, 8⟩ 5 (by decide)

/-- Claim C6 counterexample: a read at nonzero offset with the validity
counter at 0 succeeds (it returns the remaining bytes of the stored
string) instead of failing — so a read request does not fail exactly
when the counter is 0. -/
theorem stale_read_counterexample :
    (doread ⟨0, 412, 173⟩ ⟨fmtReading 412 173, 1⟩ 32).1
      = .ok [49, 50, 32, 49, 55, 51, 10] ∧
    (Store.mk 0 412 173).valid = 0 :=
  ⟨rfl, rfl⟩

/-- Claim C6 (amended): a read starting at file offset 0 fails with
`-EINVAL` exactly when the validity counter is 0; when the counter is
nonzero an offset-0 read is served (a prefix of) the formatted last
good reading instead of failing. -/
theorem read_offset_zero_fails_iff (st : Store) (fs : FileState) (len : Nat)
    (h0 : fs.ofs = 0) :
    (((doread st fs len).1 = Except.error (-22)) ↔ st.valid = 0) ∧
    (st.valid ≠ 0 → (doread st fs len).1
        = .ok ((fmtReading st.humidity st.temperature).take
            (min (fmtReading st.humidity st.temperature).length len))) := by
  by_cases hv : st.valid = 0
  · simp [doread, h0, hv]
  · constructor
    · simp [doread, h0, hv]
    · intro _
      simp [doread, h0, hv]

theorem read_offset_zero_witness :
    (((doread ⟨5, 412, 173⟩ ⟨[0], 0⟩ 32).1 = Except.error (-22))
        ↔ (Store.mk 5 412 173).valid = 0) ∧
    ((Store.mk 5 412 173).valid ≠ 0 → (doread ⟨5, 412, 173⟩ ⟨[0], 0⟩ 32).1
        = .ok ((fmtReading 412 173).take (min (fmtReading 412 173).length 32))) :=
  read_offset_zero_fails_iff ⟨5, 412, 173⟩ ⟨[0], 0⟩ 32 rfl

/-- Claim C7 counterexample: a full offset-0 read with the counter
positive returns the digits, space, digits, newline AND one further
byte — the NUL string terminator (the code copies `sprintf(...) + 1`
bytes) — so the response does not end at the newline. -/
theorem read_nul_counterexample :
    (doread ⟨5, 412, 173⟩ ⟨[0], 0⟩ 32).1
      = .ok [52, 49, 50, 32, 49, 55, 51, 10, 0] ∧
    ([52, 49, 50, 32, 49, 55, 51, 10, 0] : List Nat)
      ≠ [52, 49, 50, 32, 49, 55, 51, 10] :=
  ⟨rfl, by decide⟩

/-- Claim C7 (amended): when the validity counter is nonzero, an
offset-0 read with a large enough length produces exactly the decimal
digits of the humidity tenths, a single space (32), the decimal digits
of the temperature tenths, a newline (10), and one trailing NUL byte
(0) — the string terminator included by the `+ 1` on line 152 — with
no further bytes after the NUL. -/
theorem read_format_amended (st : Store) (fs : FileState) (len : Nat)
    (hv : st.valid ≠ 0) (h0 : fs.ofs = 0)
    (hl : (fmtReading st.humidity st.temperature).length ≤ len) :
    (doread st fs len).1
      = .ok (decBytes st.humidity ++ [32] ++ decBytes st.temperature ++ [10, 0]) := by
  have hmin : min (fmtReading st.humidity st.temperature).length len
      = (fmtReading st.humidity st.temperature).length := Nat.min_eq_left hl
  rw [show (doread st fs len).1
      = .ok ((fmtReading st.humidity st.temperature).take
          (min (fmtReading st.humidity st.temperature).length len)) from by
    simp [doread, h0, hv]]
  rw [hmin, List.take_length]
  rfl

theorem read_format_amended_witness :
    (doread ⟨5, 412, 173⟩ ⟨[0], 0⟩ 32).1
      = .ok (decBytes 412 ++ [32] ++ decBytes 173 ++ [10, 0]) :=
  read_format_amended ⟨5, 412, 173⟩ ⟨[0], 0⟩ 32 (by decide) rfl (by decide)
